import Mathlib

/-!
Shallow embedding of the zone-map tile generator (src/main.rs).

Machine integers (`u32`, `usize`) are modelled as `Nat`; `i32` fields as `Int`.
`f32`/`f64` color channels are modelled as `ℚ`: every constant appearing in the
palette and in the HSV fallback is an exact decimal literal, and the only
comparisons the program performs on colors are `|p - c| < 0.01` against palette
entries whose pairwise channel distances are at least `0.05`, far above any
float rounding error, so the branch structure of the algorithm is preserved.
`HashMap<u32, AreaInfo>` is modelled as an association list (`List (Nat × AreaInfo)`,
lookup by key), `BTreeSet<u32>` as `Finset Nat` (iterated in ascending order, as
the Rust iterator does), `HashSet<u32>` neighbor sets as `List Nat` without
duplicates whose order is arbitrary (mirroring the unspecified iteration order
of a hash set), and the `colors` map under construction as an association
list (each region is inserted at most once, so prepending has exactly the
`HashMap::insert` lookup semantics).
-/

/-- Mirrors `struct AreaInfo` from main.rs. -/
structure AreaInfo where
  id : Nat
  name : String
  parent_id : Nat
  exploration_level : Int
deriving DecidableEq

/-- `HashMap<u32, AreaInfo>` modelled as an association list. -/
abbrev AreaTable := List (Nat × AreaInfo)

/-- Worker for `find_root_parent`: the `while let Some(area) = areas.get(&current)`
loop of main.rs, carrying the original input id (returned when the chain dangles),
the visited set (`BTreeSet`) and the current id. -/
def findRootAux (areas : AreaTable) (orig : Nat) (visited : Finset Nat) (current : Nat) : Nat :=
  match h : List.lookup current areas with
  | none => orig
  | some area =>
    if hc : area.parent_id = 0 ∨ current ∈ visited then current
    else findRootAux areas orig (insert current visited) area.parent_id
termination_by (((areas.map Prod.fst).toFinset) \ visited).card
decreasing_by
  have hk : current ∈ (areas.map Prod.fst).toFinset := by
    rw [List.mem_toFinset]
    clear hc
    induction areas with
    | nil => simp [List.lookup] at h
    | cons p t ih =>
      rw [List.lookup] at h
      by_cases he : current == p.1
      · have hcp : current = p.1 := by simpa using he
        simp [hcp]
      · simp only [List.map_cons, List.mem_cons]
        right
        exact ih (by simpa [he] using h)
  have hv : current ∉ visited := fun hmem => hc (Or.inr hmem)
  have hsub : (areas.map Prod.fst).toFinset \ insert current visited ⊆
      (areas.map Prod.fst).toFinset \ visited := by
    intro x hx
    rw [Finset.mem_sdiff] at hx ⊢
    exact ⟨hx.1, fun hxv => hx.2 (Finset.mem_insert_of_mem hxv)⟩
  refine Finset.card_lt_card ((Finset.ssubset_iff_of_subset hsub).mpr ?_)
  refine ⟨current, Finset.mem_sdiff.mpr ⟨hk, hv⟩, fun hcur => ?_⟩
  exact (Finset.mem_sdiff.mp hcur).2 (Finset.mem_insert_self _ _)

/-- Mirrors `find_root_parent` from main.rs. -/
def find_root_parent (area_id : Nat) (areas : AreaTable) : Nat :=
  findRootAux areas area_id ∅ area_id

/-- Fuel-indexed version of the `find_root_parent` loop: performs at most `fuel`
iterations and answers `none` when the fuel runs out.  Used to state that the
loop terminates within a bound derived from the table size. -/
def findRootFuel (areas : AreaTable) (orig : Nat) : Nat → Finset Nat → Nat → Option Nat
  | 0, _, _ => none
  | fuel + 1, visited, current =>
    match List.lookup current areas with
    | none => some orig
    | some area =>
      if area.parent_id = 0 ∨ current ∈ visited then some current
      else findRootFuel areas orig fuel (insert current visited) area.parent_id

/-- `HashMap<u32, HashSet<u32>>` (`type NeighborGraph`) modelled as a total
function: an absent key is the empty list, a neighbor set is a duplicate-free
list in unspecified order. -/
abbrev Graph := Nat → List Nat

/-- `HashSet::insert`: add an element unless it is already present. -/
def insertL (x : Nat) (l : List Nat) : List Nat :=
  if x ∈ l then l else x :: l

/-- Mirrors `add_neighbor` from main.rs: bidirectional edge insertion, a no-op
when either endpoint is the sentinel `0` or both endpoints coincide.  The map
after the two `insert` calls is written pointwise: only the entries of `a` and
`b` change (`a ≠ b` inside the guard, so the two inserts touch distinct keys). -/
def add_neighbor (g : Graph) (a b : Nat) : Graph := fun k =>
  if a ≠ 0 ∧ b ≠ 0 ∧ a ≠ b then
    if k = a then insertL b (g a) else if k = b then insertL a (g b) else g k
  else g k

/-- Mirrors `find_tile_neighbors` from main.rs: horizontal then vertical
adjacency inside one 16x16 tile.  `area_ids[idx]` is modelled with `getD 0`;
all callers pass arrays of exactly 256 entries. -/
def find_tile_neighbors (area_ids : List Nat) (g : Graph) : Graph :=
  let g1 := (List.range 16).foldl (fun gy y =>
    (List.range 15).foldl (fun gx x =>
      add_neighbor gx (area_ids.getD (y * 16 + x) 0) (area_ids.getD (y * 16 + x + 1) 0)) gy) g
  (List.range 15).foldl (fun gy y =>
    (List.range 16).foldl (fun gx x =>
      add_neighbor gx (area_ids.getD (y * 16 + x) 0) (area_ids.getD ((y + 1) * 16 + x) 0)) gy) g1

/-- The `tiles: &HashMap<u32, Vec<u32>>` collection, modelled as an association
list whose order stands for the hash map's unspecified iteration order. -/
abbrev TileMap := List (Nat × List Nat)

/-- The 16 row pairings between a tile's rightmost column and the right
neighbor tile's leftmost column (the inner `for y in 0..16` loop). -/
def pair_right_cols (curr right : List Nat) (g : Graph) : Graph :=
  (List.range 16).foldl (fun gy y =>
    add_neighbor gy (curr.getD (y * 16 + 15) 0) (right.getD (y * 16 + 0) 0)) g

/-- The 16 column pairings between a tile's bottom row and the bottom neighbor
tile's top row (the inner `for x in 0..16` loop). -/
def pair_bottom_rows (curr bottom : List Nat) (g : Graph) : Graph :=
  (List.range 16).foldl (fun gx x =>
    add_neighbor gx (curr.getD (15 * 16 + x) 0) (bottom.getD (0 * 16 + x) 0)) g

/-- The "Check right neighbor tile" block of `find_inter_tile_neighbors`:
guarded by `tile_x < 63`, looks up the tile at `tile_y*64 + tile_x + 1`. -/
def right_step (tiles : TileMap) (key : Nat) (ids : List Nat) (g : Graph) : Graph :=
  if key % 64 < 63 then
    match List.lookup (key / 64 * 64 + key % 64 + 1) tiles with
    | some r => pair_right_cols ids r g
    | none => g
  else g

/-- The "Check bottom neighbor tile" block of `find_inter_tile_neighbors`:
guarded by `tile_y < 63`, looks up the tile at `(tile_y + 1)*64 + tile_x`. -/
def bottom_step (tiles : TileMap) (key : Nat) (ids : List Nat) (g : Graph) : Graph :=
  if key / 64 < 63 then
    match List.lookup ((key / 64 + 1) * 64 + key % 64) tiles with
    | some b => pair_bottom_rows ids b g
    | none => g
  else g

/-- Mirrors `find_inter_tile_neighbors` from main.rs: for every tile in the
collection, pair against the right neighbor tile and then the bottom neighbor
tile, when present. -/
def find_inter_tile_neighbors (tiles : TileMap) (g : Graph) : Graph :=
  tiles.foldl (fun gacc kv => bottom_step tiles kv.1 kv.2 (right_step tiles kv.1 kv.2 gacc)) g

/-- One call into the graph-building phase: `main` invokes
`find_tile_neighbors` once per parsed tile and `find_inter_tile_neighbors`
once per continent, all against the same shared graph. -/
inductive GraphOp where
  | tile (ids : List Nat)
  | inter (tiles : TileMap)

/-- Apply one graph-building call. -/
def applyOp (g : Graph) : GraphOp → Graph
  | .tile ids => find_tile_neighbors ids g
  | .inter tiles => find_inter_tile_neighbors tiles g

/-- The graph obtained from the empty graph by a sequence of
`find_tile_neighbors` / `find_inter_tile_neighbors` calls. -/
def applyOps (ops : List GraphOp) : Graph :=
  ops.foldl applyOp (fun _ => [])

/-- An RGB triple; each `f32` channel is modelled as an exact rational. -/
abbrev Color := ℚ × ℚ × ℚ

/-- The predefined palette of 16 visually distinct colors from
`generate_colors_with_graph`. -/
def palette : List Color :=
  [ (90/100, 30/100, 30/100),
    (30/100, 70/100, 30/100),
    (30/100, 50/100, 90/100),
    (90/100, 80/100, 20/100),
    (80/100, 40/100, 80/100),
    (20/100, 80/100, 80/100),
    (95/100, 60/100, 30/100),
    (60/100, 80/100, 40/100),
    (80/100, 50/100, 60/100),
    (50/100, 70/100, 80/100),
    (70/100, 60/100, 40/100),
    (60/100, 40/100, 70/100),
    (40/100, 60/100, 50/100),
    (85/100, 70/100, 70/100),
    (70/100, 85/100, 70/100),
    (70/100, 70/100, 85/100) ]

/-- The per-channel tolerance test
`(p.0 - c.0).abs() < 0.01 && (p.1 - c.1).abs() < 0.01 && (p.2 - c.2).abs() < 0.01`. -/
def closeColor (p c : Color) : Bool :=
  decide (|p.1 - c.1| < 1/100) && decide (|p.2.1 - c.2.1| < 1/100) &&
    decide (|p.2.2 - c.2.2| < 1/100)

/-- `Iterator::position`: index of the first element satisfying the predicate. -/
def position (p : Color → Bool) : List Color → Option Nat
  | [] => none
  | c :: rest => if p c then some 0 else (position p rest).map (· + 1)

/-- `palette.iter().position(|p| ...)` applied to a stored color `c`. -/
def paletteIdxOf (c : Color) : Option Nat :=
  position (fun p => closeColor p c) palette

/-- The procedural fallback color of `generate_colors_with_graph`: golden-ratio
hue from the region id, saturation `0.7`, value `0.9`, HSV to RGB by the sector
formula.  `x % 1.0` and `x % 2.0` on a nonnegative `f64` are `x - k*⌊x/k⌋`, and
`(hue * 6.0) as i32` truncates the nonnegative value `hue * 6 < 6` to `⌊hue*6⌋`. -/
def fallbackColor (area_id : Nat) : Color :=
  let golden : ℚ := 618033988749895 / 1000000000000000
  let hue : ℚ := (area_id : ℚ) * golden - ⌊(area_id : ℚ) * golden⌋
  let s : ℚ := 7/10
  let v : ℚ := 9/10
  let c := v * s
  let x := c * (1 - |(hue * 6 - 2 * ⌊hue * 6 / 2⌋) - 1|)
  let m := v - c
  match (⌊hue * 6⌋ : ℤ) with
  | 0 => (c + m, x + m, 0 + m)
  | 1 => (x + m, c + m, 0 + m)
  | 2 => (0 + m, c + m, x + m)
  | 3 => (0 + m, x + m, c + m)
  | 4 => (x + m, 0 + m, c + m)
  | _ => (c + m, 0 + m, x + m)

/-- The `colors: HashMap<u32, (f32, f32, f32)>` map under construction,
modelled as an association list; the algorithm inserts each key at most once,
so prepending an entry has exactly the `HashMap::insert` lookup semantics. -/
abbrev ColorMap := List (Nat × Color)

/-- The `neighbor_colors` set of one coloring step: palette indices of the
already-colored neighbors (`ns.iter().filter_map(...)`, collected into a set
and only queried for membership, so the list order is immaterial). -/
def neighborColorIdxs (colors : ColorMap) (ns : List Nat) : List Nat :=
  ns.filterMap (fun n => (List.lookup n colors).bind paletteIdxOf)

/-- The `parent_color_idx` of one coloring step: the palette index of the
already-assigned color of the region's immediate parent (`unwrap_or(0)` for a
region absent from the reference table). -/
def parentColorIdx (areas : AreaTable) (colors : ColorMap) (a : Nat) : Option Nat :=
  (List.lookup (((List.lookup a areas).map AreaInfo.parent_id).getD 0) colors).bind paletteIdxOf

/-- The `for i in 0..palette.len()` search: the first palette index excluded by
neither the neighbor set nor the parent, when one exists. -/
def firstFree (nc : List Nat) (pidx : Option Nat) : Option Nat :=
  (List.range palette.length).find? (fun i => !(nc.contains i) && !(pidx == some i))

/-- `chosen_idx` after the search loop: the found index, or the initial `0`
when the loop never breaks. -/
def chosenIdx (nc : List Nat) (pidx : Option Nat) : Nat :=
  (firstFree nc pidx).getD 0

/-- One iteration body of the coloring loop: given the colors assigned so far,
the color chosen for `area_id` (palette entry or procedural fallback, per the
`chosen_idx < palette.len() && !neighbor_colors.contains(&chosen_idx)` test). -/
def assignColor (g : Graph) (areas : AreaTable) (colors : ColorMap)
    (area_id : Nat) : Color :=
  let nc := neighborColorIdxs colors (g area_id)
  let ci := chosenIdx nc (parentColorIdx areas colors area_id)
  if ci < palette.length ∧ nc.contains ci = false then palette.getD ci (0, 0, 0)
  else fallbackColor area_id

/-- One full iteration of `for area_id in area_list`:
`colors.insert(area_id, color)` with the chosen color. -/
def colorStep (g : Graph) (areas : AreaTable) (m : ColorMap) (a : Nat) : ColorMap :=
  (a, assignColor g areas m a) :: m

/-- Stable insertion of `a` into a list sorted by descending `cnt`: `a` goes
before the first element whose count does not exceed its own. -/
def ordInsert (cnt : Nat → Nat) (a : Nat) : List Nat → List Nat
  | [] => [a]
  | b :: bs => if cnt b ≤ cnt a then a :: b :: bs else b :: ordInsert cnt a bs

/-- Stable sort by descending `cnt`, the semantics of
`area_list.sort_by_key(|&a| std::cmp::Reverse(...))` (Rust's `sort_by_key` is
a stable sort). -/
def sortDescBy (cnt : Nat → Nat) : List Nat → List Nat
  | [] => []
  | a :: rest => ordInsert cnt a (sortDescBy cnt rest)

/-- Ascending iteration over a `BTreeSet<u32>` modelled as a `Finset`: sort the
underlying multiset with the structural insertion sort (so that the list
evaluates by kernel reduction); any two representatives sort to the same list,
and the result equals `Finset.sort` (theorem `btreeAscList_eq_sort`). -/
def btreeAscList (s : Finset Nat) : List Nat :=
  Quot.liftOn s.1 (fun l => l.insertionSort (· ≤ ·)) (fun l1 l2 h =>
    List.eq_of_perm_of_sorted
      ((List.perm_insertionSort _ l1).trans ((Quotient.exact (Quot.sound h)).trans
        (List.perm_insertionSort _ l2).symm))
      (List.sorted_insertionSort _ l1) (List.sorted_insertionSort _ l2))

/-- The processing order of `generate_colors_with_graph`: ascending iteration
over the `BTreeSet` of found areas, dropping the sentinel `0`, then a stable
sort by descending neighbor count
(`neighbors.get(&a).map(|n| n.len()).unwrap_or(0)`). -/
def processOrder (found_areas : Finset Nat) (neighbors : Graph) : List Nat :=
  sortDescBy (fun a => (neighbors a).length)
    ((btreeAscList found_areas).filter (fun a => a ≠ 0))

/-- Mirrors `generate_colors_with_graph` from main.rs: color the regions in
processing order, starting from the empty color map. -/
def generate_colors_with_graph (found_areas : Finset Nat) (neighbors : Graph)
    (areas : AreaTable) : ColorMap :=
  (processOrder found_areas neighbors).foldl (colorStep neighbors areas) []

/-- `u32::to_le_bytes`: the four little-endian bytes of a 32-bit value. -/
def u32_to_le_bytes (v : Nat) : List Nat :=
  [v % 256, v / 256 % 256, v / 65536 % 256, v / 16777216 % 256]

/-- The standard base64 alphabet used by `general_purpose::STANDARD`. -/
def b64chars : List Char :=
  [ 'A','B','C','D','E','F','G','H','I','J','K','L','M','N','O','P',
    'Q','R','S','T','U','V','W','X','Y','Z',
    'a','b','c','d','e','f','g','h','i','j','k','l','m','n','o','p',
    'q','r','s','t','u','v','w','x','y','z',
    '0','1','2','3','4','5','6','7','8','9','+','/' ]

/-- The alphabet character of a 6-bit value. -/
def b64char (n : Nat) : Char := b64chars.getD n '?'

/-- Standard base64 encoding with `=` padding, three input bytes per four
output characters. -/
def b64encodeBytes : List Nat → List Char
  | [] => []
  | [b0] => [b64char (b0 / 4), b64char (b0 % 4 * 16), '=', '=']
  | [b0, b1] => [b64char (b0 / 4), b64char (b0 % 4 * 16 + b1 / 16), b64char (b1 % 16 * 4), '=']
  | b0 :: b1 :: b2 :: rest =>
    b64char (b0 / 4) :: b64char (b0 % 4 * 16 + b1 / 16) ::
      b64char (b1 % 16 * 4 + b2 / 64) :: b64char (b2 % 64) :: b64encodeBytes rest

/-- Mirrors `encode_tile_b64` from main.rs: error unless exactly 256 area IDs,
otherwise the base64 encoding of the 1024 little-endian bytes. -/
def encode_tile_b64 (area_ids_256 : List Nat) : Except String String :=
  if area_ids_256.length ≠ 256 then
    .error "expected 256 area IDs"
  else
    .ok (String.mk (b64encodeBytes (area_ids_256.flatMap u32_to_le_bytes)))

/-- The 6-bit value of a base64 alphabet character. -/
def b64index (c : Char) : Nat := b64chars.indexOf c

/-- Standard base64 decoding (the inverse direction used to state the
round-trip property; base64 decoding itself is not part of main.rs). -/
def b64decodeBytes : List Char → List Nat
  | c0 :: c1 :: c2 :: c3 :: rest =>
    if c2 = '=' then [b64index c0 * 4 + b64index c1 / 16]
    else if c3 = '=' then
      [b64index c0 * 4 + b64index c1 / 16, b64index c1 % 16 * 16 + b64index c2 / 4]
    else
      (b64index c0 * 4 + b64index c1 / 16) ::
        (b64index c1 % 16 * 16 + b64index c2 / 4) ::
        (b64index c2 % 4 * 64 + b64index c3) :: b64decodeBytes rest
  | _ => []

/-- Read consecutive little-endian 32-bit words from a byte list. -/
def le_words : List Nat → List Nat
  | b0 :: b1 :: b2 :: b3 :: rest =>
    (b0 + 256 * b1 + 65536 * b2 + 16777216 * b3) :: le_words rest
  | _ => []

/-- Witness reference table for the root-resolution claims: a three-level
chain `5 → 6 → 7 (root)` and a dangling entry `9 → 42` (42 absent). -/
def w3Areas : AreaTable :=
  [(5, ⟨5, "Five", 6, 10⟩), (6, ⟨6, "Six", 7, 0⟩), (7, ⟨7, "Seven", 0, 0⟩), (9, ⟨9, "Nine", 42, 0⟩)]

def w4Areas : AreaTable := [(1, ⟨1, "", 2, 0⟩), (2, ⟨2, "", 1, 0⟩)]

/-- Counterexample table for C2: region 2 has immediate parent 3. -/
def c2xAreas : AreaTable := [(2, ⟨2, "", 3, 0⟩)]

/-- C1 failing input, neighbor lists: regions 1..15 form a clique, each also adjacent to region 100. -/
def cliqueList (a : Nat) : List Nat :=
  ((List.range 15).map (· + 1)).filter (fun x => x ≠ a) ++ [100]

/-- C1 failing input, adjacency: 100 is adjacent to the clique 1..15; 200 is adjacent to sixteen filler regions 301..316 (to be colored first); the fillers see only 200. -/
def cxG : Graph := fun a =>
  if a = 100 then (List.range 15).map (· + 1)
  else if a = 200 then (List.range 16).map (· + 301)
  else if 301 ≤ a ∧ a ≤ 316 then [200]
  else if 1 ≤ a ∧ a ≤ 15 then cliqueList a
  else []

/-- C1 failing input, found-region set. -/
def cxFound : Finset Nat :=
  ((List.range 15).map (· + 1) ++ [100, 200] ++ (List.range 16).map (· + 301)).toFinset

/-- C1 failing input, reference table: regions 1..15 and 100 all have immediate parent 200. -/
def cxAreas : AreaTable :=
  (List.range 15).map (fun i => (i + 1, ⟨i + 1, "", 200, 0⟩)) ++ [(100, ⟨100, "", 200, 0⟩)]

/-- The regions colored before region 100 in the C1 failing input. -/
def cxBefore100 : List Nat := 200 :: (List.range 15).map (· + 1)

/-- The regions colored after region 100 in the C1 failing input. -/
def cxAfter100 : List Nat := (List.range 16).map (· + 301)

/-- Witness graph for the adjacency half of C2: regions 1 and 2 adjacent. -/
def wAdjGraph : Graph := fun a => if a = 1 then [2] else if a = 2 then [1] else []

/-- Witness graph for the parent half of C2: 2 and 9 adjacent, 3 isolated. -/
def wParGraph : Graph := fun a => if a = 2 then [9] else if a = 9 then [2] else []

/-- Witness table for the parent half of C2: region 3 has parent 2. -/
def wParAreas : AreaTable := [(3, ⟨3, "", 2, 0⟩)]

/-- Witness graph for C6, one neighbor-set iteration order. -/
def wDetGraph1 : Graph := fun a =>
  if a = 1 then [2, 3] else if a = 2 then [1] else if a = 3 then [1] else []

/-- Witness graph for C6, the other iteration order of region 1's neighbor set. -/
def wDetGraph2 : Graph := fun a =>
  if a = 1 then [3, 2] else if a = 2 then [1] else if a = 3 then [1] else []

/-- The invariant behind C7: `0` is never a key, `0` is never a member, and no
region is its own neighbor. -/
def CleanGraph (g : Graph) : Prop :=
  g 0 = [] ∧ ∀ a, 0 ∉ g a ∧ a ∉ g a

/-- The symmetry invariant, preserved by every graph-building function. -/
def SymmetricGraph (g : Graph) : Prop :=
  ∀ x y : Nat, x ∈ g y ↔ y ∈ g x

attribute [local semireducible] Rat.add Rat.sub Rat.mul Rat.inv Rat.ofScientific

theorem mem_insertL {x v : Nat} {l : List Nat} : x ∈ insertL v l ↔ x = v ∨ x ∈ l := by
  unfold insertL
  split
  case isTrue hv =>
    constructor
    · exact fun hx => Or.inr hx
    · rintro (rfl | hx)
      · exact hv
      · exact hx
  case isFalse hv => simp [List.mem_cons]

theorem foldl_graph_inv {α : Type} (P : Graph → Prop) (f : Graph → α → Graph)
    (hf : ∀ g x, P g → P (f g x)) :
    ∀ (l : List α) (g : Graph), P g → P (l.foldl f g) := by
  intro l
  induction l with
  | nil => intro g hg; simpa using hg
  | cons x t ih => intro g hg; simpa using ih (f g x) (hf g x hg)

theorem add_neighbor_mem {g : Graph} {a b : Nat} (hg : a ≠ 0 ∧ b ≠ 0 ∧ a ≠ b) (x k : Nat) :
    x ∈ add_neighbor g a b k ↔
      (k = a ∧ (x = b ∨ x ∈ g a)) ∨ (k ≠ a ∧ k = b ∧ (x = a ∨ x ∈ g b)) ∨
        (k ≠ a ∧ k ≠ b ∧ x ∈ g k) := by
  unfold add_neighbor
  rw [if_pos hg]
  by_cases hka : k = a
  · simp [hka, mem_insertL, (show a ≠ b from hg.2.2)]
  · by_cases hkb : k = b
    · simp [hka, hkb, mem_insertL, (show b ≠ a from fun e => hg.2.2 e.symm)]
    · simp [hka, hkb]

theorem add_neighbor_not_mem {g : Graph} {a b : Nat} (hg : ¬(a ≠ 0 ∧ b ≠ 0 ∧ a ≠ b)) (x k : Nat) :
    x ∈ add_neighbor g a b k ↔ x ∈ g k := by
  unfold add_neighbor
  rw [if_neg hg]

theorem add_neighbor_clean {g : Graph} (h : CleanGraph g) (a b : Nat) :
    CleanGraph (add_neighbor g a b) := by
  by_cases hg : a ≠ 0 ∧ b ≠ 0 ∧ a ≠ b
  · constructor
    · unfold add_neighbor
      rw [if_pos hg, if_neg (fun e => hg.1 e.symm), if_neg (fun e => hg.2.1 e.symm)]
      exact h.1
    · intro k
      constructor
      · intro hmem
        rcases (add_neighbor_mem hg 0 k).mp hmem with ⟨_, hx⟩ | ⟨_, _, hx⟩ | ⟨_, _, hx⟩
        · rcases hx with h0b | h0m
          · exact hg.2.1 h0b.symm
          · exact (h.2 a).1 h0m
        · rcases hx with h0a | h0m
          · exact hg.1 h0a.symm
          · exact (h.2 b).1 h0m
        · exact (h.2 k).1 hx
      · intro hmem
        rcases (add_neighbor_mem hg k k).mp hmem with ⟨hka, hx⟩ | ⟨hka, hkb, hx⟩ | ⟨_, _, hx⟩
        · rcases hx with hkb | hm
          · exact hg.2.2 (hka.symm.trans hkb)
          · rw [hka] at hm
            exact (h.2 a).2 hm
        · rcases hx with hka2 | hm
          · exact hka hka2
          · rw [hkb] at hm
            exact (h.2 b).2 hm
        · exact (h.2 k).2 hx
  · constructor
    · unfold add_neighbor
      rw [if_neg hg]
      exact h.1
    · intro k
      constructor
      · intro hmem
        exact (h.2 k).1 ((add_neighbor_not_mem hg 0 k).mp hmem)
      · intro hmem
        exact (h.2 k).2 ((add_neighbor_not_mem hg k k).mp hmem)

theorem find_tile_neighbors_clean {g : Graph} (h : CleanGraph g) (ids : List Nat) :
    CleanGraph (find_tile_neighbors ids g) := by
  unfold find_tile_neighbors
  refine foldl_graph_inv CleanGraph _
    (fun gy y hy => foldl_graph_inv CleanGraph _ (fun gx x hx => add_neighbor_clean hx _ _) _ _ hy) _ _
    (foldl_graph_inv CleanGraph _
      (fun gy y hy => foldl_graph_inv CleanGraph _ (fun gx x hx => add_neighbor_clean hx _ _) _ _ hy) _ _ h)

theorem right_step_clean {g : Graph} (h : CleanGraph g) (tiles : TileMap) (key : Nat)
    (ids : List Nat) : CleanGraph (right_step tiles key ids g) := by
  unfold right_step
  split
  · split
    · exact foldl_graph_inv CleanGraph _ (fun gy y hy => add_neighbor_clean hy _ _) _ _ h
    · exact h
  · exact h

theorem bottom_step_clean {g : Graph} (h : CleanGraph g) (tiles : TileMap) (key : Nat)
    (ids : List Nat) : CleanGraph (bottom_step tiles key ids g) := by
  unfold bottom_step
  split
  · split
    · exact foldl_graph_inv CleanGraph _ (fun gx x hx => add_neighbor_clean hx _ _) _ _ h
    · exact h
  · exact h

theorem find_inter_tile_neighbors_clean {g : Graph} (h : CleanGraph g) (tiles : TileMap) :
    CleanGraph (find_inter_tile_neighbors tiles g) := by
  unfold find_inter_tile_neighbors
  exact foldl_graph_inv CleanGraph _
    (fun gacc kv hacc => bottom_step_clean (right_step_clean hacc _ _ _) _ _ _) _ _ h

/-- C7: after any sequence of `find_tile_neighbors` and
`find_inter_tile_neighbors` calls starting from the empty graph, region `0`
never appears as a key of the adjacency graph nor as a member of any neighbor
set, and no region is a member of its own neighbor set. -/
theorem c7_no_self_sentinel (ops : List GraphOp) :
    applyOps ops 0 = [] ∧ ∀ a : Nat, 0 ∉ applyOps ops a ∧ a ∉ applyOps ops a := by
  have : CleanGraph (applyOps ops) := by
    unfold applyOps
    refine foldl_graph_inv CleanGraph _ (fun g op hg => ?_) _ _ ⟨rfl, fun a => by simp⟩
    cases op with
    | tile ids => exact find_tile_neighbors_clean hg ids
    | inter tiles => exact find_inter_tile_neighbors_clean hg tiles
  exact this

theorem add_neighbor_symmetric {g : Graph} (h : ∀ x y : Nat, x ∈ g y ↔ y ∈ g x) (a b : Nat) :
    ∀ x y : Nat, x ∈ add_neighbor g a b y ↔ y ∈ add_neighbor g a b x := by
  suffices hm : ∀ x y : Nat, x ∈ add_neighbor g a b y → y ∈ add_neighbor g a b x from
    fun x y => ⟨hm x y, hm y x⟩
  intro x y hxy
  by_cases hg : a ≠ 0 ∧ b ≠ 0 ∧ a ≠ b
  · rw [add_neighbor_mem hg] at hxy ⊢
    obtain ⟨ha, hb, hab⟩ := hg
    rcases hxy with ⟨hya, hx⟩ | ⟨hya, hyb, hx⟩ | ⟨hya, hyb, hx⟩
    · rcases hx with hxb | hxga
      · exact Or.inr (Or.inl ⟨fun e => hab (e.symm.trans hxb), hxb, Or.inl hya⟩)
      · by_cases hxa : x = a
        · refine Or.inl ⟨hxa, Or.inr ?_⟩
          rw [hxa] at hxga
          rw [hya]
          exact hxga
        · by_cases hxb : x = b
          · exact Or.inr (Or.inl ⟨hxa, hxb, Or.inl hya⟩)
          · refine Or.inr (Or.inr ⟨hxa, hxb, ?_⟩)
            rw [hya]
            exact (h x a).mp hxga
    · rcases hx with hxa | hxgb
      · exact Or.inl ⟨hxa, Or.inl hyb⟩
      · by_cases hxa : x = a
        · refine Or.inl ⟨hxa, Or.inr ?_⟩
          rw [hxa] at hxgb
          rw [hyb]
          exact (h a b).mp hxgb
        · by_cases hxb : x = b
          · refine Or.inr (Or.inl ⟨hxa, hxb, Or.inr ?_⟩)
            rw [hxb] at hxgb
            rw [hyb]
            exact hxgb
          · refine Or.inr (Or.inr ⟨hxa, hxb, ?_⟩)
            rw [hyb]
            exact (h x b).mp hxgb
    · by_cases hxa : x = a
      · refine Or.inl ⟨hxa, Or.inr ?_⟩
        rw [hxa] at hx
        exact (h a y).mp hx
      · by_cases hxb : x = b
        · refine Or.inr (Or.inl ⟨hxa, hxb, Or.inr ?_⟩)
          rw [hxb] at hx
          exact (h b y).mp hx
        · exact Or.inr (Or.inr ⟨hxa, hxb, (h x y).mp hx⟩)
  · rw [add_neighbor_not_mem hg] at hxy ⊢
    exact (h x y).mp hxy

theorem find_tile_neighbors_symmetric {g : Graph} (h : SymmetricGraph g) (ids : List Nat) :
    SymmetricGraph (find_tile_neighbors ids g) := by
  unfold find_tile_neighbors
  refine foldl_graph_inv SymmetricGraph _
    (fun gy y hy => foldl_graph_inv SymmetricGraph _
      (fun gx x hx => add_neighbor_symmetric hx _ _) _ _ hy) _ _
    (foldl_graph_inv SymmetricGraph _
      (fun gy y hy => foldl_graph_inv SymmetricGraph _
        (fun gx x hx => add_neighbor_symmetric hx _ _) _ _ hy) _ _ h)

theorem right_step_symmetric {g : Graph} (h : SymmetricGraph g) (tiles : TileMap) (key : Nat)
    (ids : List Nat) : SymmetricGraph (right_step tiles key ids g) := by
  unfold right_step
  split
  · split
    · exact foldl_graph_inv SymmetricGraph _ (fun gy y hy => add_neighbor_symmetric hy _ _) _ _ h
    · exact h
  · exact h

theorem bottom_step_symmetric {g : Graph} (h : SymmetricGraph g) (tiles : TileMap) (key : Nat)
    (ids : List Nat) : SymmetricGraph (bottom_step tiles key ids g) := by
  unfold bottom_step
  split
  · split
    · exact foldl_graph_inv SymmetricGraph _ (fun gx x hx => add_neighbor_symmetric hx _ _) _ _ h
    · exact h
  · exact h

theorem find_inter_tile_neighbors_symmetric {g : Graph} (h : SymmetricGraph g) (tiles : TileMap) :
    SymmetricGraph (find_inter_tile_neighbors tiles g) := by
  unfold find_inter_tile_neighbors
  exact foldl_graph_inv SymmetricGraph _
    (fun gacc kv hacc => bottom_step_symmetric (right_step_symmetric hacc _ _ _) _ _ _) _ _ h

/-- C8: the adjacency graph is symmetric: after any sequence of
`find_tile_neighbors` and `find_inter_tile_neighbors` calls starting from the
empty graph, `b` is in `a`'s neighbor set iff `a` is in `b`'s. -/
theorem c8_symmetry (ops : List GraphOp) (a b : Nat) :
    b ∈ applyOps ops a ↔ a ∈ applyOps ops b := by
  have hs : SymmetricGraph (applyOps ops) := by
    unfold applyOps
    refine foldl_graph_inv SymmetricGraph _ (fun g op hg => ?_) _ _ (fun x y => by simp)
    cases op with
    | tile ids => exact find_tile_neighbors_symmetric hg ids
    | inter tiles => exact find_inter_tile_neighbors_symmetric hg tiles
  exact hs b a

/-- C10: `find_inter_tile_neighbors` never wraps around the 64x64 grid: a tile
in the last column (`key % 64 = 63`) skips the right-neighbor pairing entirely
and a tile in the last row (`key / 64 = 63`) skips the bottom-neighbor pairing
entirely, whatever tiles the collection contains — in particular even when it
contains the tile with the wrapped-around linear key. -/
theorem c10_no_wraparound (tiles : TileMap) (key : Nat) (ids : List Nat) (g : Graph) :
    (key % 64 = 63 → right_step tiles key ids g = g) ∧
    (key / 64 = 63 → bottom_step tiles key ids g = g) := by
  constructor
  · intro h
    unfold right_step
    rw [h]
    simp
  · intro h
    unfold bottom_step
    rw [h]
    simp

theorem c10_no_wraparound_witness :
    right_step [(64, List.replicate 256 4)] 63 (List.replicate 256 3) (fun _ => []) =
      (fun _ => []) ∧
    bottom_step [(4096, List.replicate 256 4)] 4032 (List.replicate 256 3) (fun _ => []) =
      (fun _ => []) :=
  ⟨(c10_no_wraparound [(64, List.replicate 256 4)] 63 (List.replicate 256 3) (fun _ => [])).1
      (by decide),
   (c10_no_wraparound [(4096, List.replicate 256 4)] 4032 (List.replicate 256 3) (fun _ => [])).2
      (by decide)⟩

theorem findRootAux_eq (areas : AreaTable) (orig : Nat) (visited : Finset Nat) (current : Nat) :
    findRootAux areas orig visited current =
      match List.lookup current areas with
      | none => orig
      | some area =>
        if area.parent_id = 0 ∨ current ∈ visited then current
        else findRootAux areas orig (insert current visited) area.parent_id := by
  rw [findRootAux]
  rcases h : List.lookup current areas with _ | area
  · rfl
  · by_cases hc : area.parent_id = 0 ∨ current ∈ visited
    · simp [hc]
    · simp [hc]

theorem lookup_mem_keys {areas : AreaTable} {k : Nat} {a : AreaInfo}
    (h : List.lookup k areas = some a) : k ∈ areas.map Prod.fst := by
  induction areas with
  | nil => simp [List.lookup] at h
  | cons p t ih =>
    rw [List.lookup] at h
    by_cases he : k == p.1
    · have hcp : k = p.1 := by simpa using he
      simp [hcp]
    · simp only [List.map_cons, List.mem_cons]
      right
      exact ih (by simpa [he] using h)

/-- C3: `find_root_parent` follows parent links: a region whose entry has
`parentId = 0` is its own root; a chain `A → B → C` with `C` a root resolves
both `A` and `B` to `C`; an id absent from the table resolves to itself; and a
chain that dangles (parent id absent from the table) returns the original
input id, not the last-seen id. -/
theorem c3_find_root_parent (areas : AreaTable) :
    (∀ id a, List.lookup id areas = some a → a.parent_id = 0 →
        find_root_parent id areas = id) ∧
    (∀ A B C aA aB aC, List.lookup A areas = some aA → aA.parent_id = B → B ≠ 0 → A ≠ B →
        List.lookup B areas = some aB → aB.parent_id = C → C ≠ 0 →
        List.lookup C areas = some aC → aC.parent_id = 0 →
        find_root_parent A areas = C ∧ find_root_parent B areas = C) ∧
    (∀ id, List.lookup id areas = none → find_root_parent id areas = id) ∧
    (∀ D E aD, List.lookup D areas = some aD → aD.parent_id = E → E ≠ 0 →
        List.lookup E areas = none → find_root_parent D areas = D) := by
  have root_self : ∀ (visited : Finset Nat) id a, List.lookup id areas = some a →
      a.parent_id = 0 → findRootAux areas id visited id = id := by
    intro visited id a hlk hp
    rw [findRootAux_eq, hlk]
    dsimp only
    rw [if_pos (Or.inl hp)]
  have step : ∀ (orig : Nat) (visited : Finset Nat) (current : Nat) a,
      List.lookup current areas = some a → a.parent_id ≠ 0 → current ∉ visited →
      findRootAux areas orig visited current =
        findRootAux areas orig (insert current visited) a.parent_id := by
    intro orig visited current a hlk hp hv
    rw [findRootAux_eq, hlk]
    dsimp only
    rw [if_neg (show ¬(a.parent_id = 0 ∨ current ∈ visited) from fun hc => hc.elim hp hv)]
  have root_of : ∀ (orig : Nat) (visited : Finset Nat) C aC,
      List.lookup C areas = some aC → aC.parent_id = 0 →
      findRootAux areas orig visited C = C := by
    intro orig visited C aC hlk hp
    rw [findRootAux_eq, hlk]
    dsimp only
    rw [if_pos (Or.inl hp)]
  refine ⟨?_, ?_, ?_, ?_⟩
  · intro id a hlk hp
    exact root_self ∅ id a hlk hp
  · intro A B C aA aB aC hA hpA hB0 hAB hB hpB hC0 hC hpC
    constructor
    · unfold find_root_parent
      rw [step A ∅ A aA hA (by rw [hpA]; exact hB0) (by simp), hpA]
      rw [step A (insert A ∅) B aB hB (by rw [hpB]; exact hC0)
        (by simp [Finset.mem_insert]; exact fun e => hAB e.symm), hpB]
      exact root_of A _ C aC hC hpC
    · unfold find_root_parent
      rw [step B ∅ B aB hB (by rw [hpB]; exact hC0) (by simp), hpB]
      exact root_of B _ C aC hC hpC
  · intro id hlk
    unfold find_root_parent
    rw [findRootAux_eq, hlk]
  · intro D E aD hD hpD hE0 hE
    unfold find_root_parent
    rw [step D ∅ D aD hD (by rw [hpD]; exact hE0) (by simp), hpD]
    rw [findRootAux_eq, hE]

theorem c3_find_root_parent_witness :
    find_root_parent 5 w3Areas = 7 ∧ find_root_parent 6 w3Areas = 7 ∧
    find_root_parent 7 w3Areas = 7 ∧ find_root_parent 8 w3Areas = 8 ∧
    find_root_parent 9 w3Areas = 9 :=
  ⟨((c3_find_root_parent w3Areas).2.1 5 6 7 ⟨5, "Five", 6, 10⟩ ⟨6, "Six", 7, 0⟩ ⟨7, "Seven", 0, 0⟩
      (by decide) rfl (by decide) (by decide) (by decide) rfl (by decide) (by decide) rfl).1,
   ((c3_find_root_parent w3Areas).2.1 5 6 7 ⟨5, "Five", 6, 10⟩ ⟨6, "Six", 7, 0⟩ ⟨7, "Seven", 0, 0⟩
      (by decide) rfl (by decide) (by decide) (by decide) rfl (by decide) (by decide) rfl).2,
   (c3_find_root_parent w3Areas).1 7 ⟨7, "Seven", 0, 0⟩ (by decide) rfl,
   (c3_find_root_parent w3Areas).2.2.1 8 (by decide),
   (c3_find_root_parent w3Areas).2.2.2 9 42 ⟨9, "Nine", 42, 0⟩ (by decide) rfl (by decide)
     (by decide)⟩

theorem sdiff_insert_card_lt {K V : Finset Nat} {c : Nat} (hK : c ∈ K) (hV : c ∉ V) :
    (K \ insert c V).card < (K \ V).card := by
  have hsub : K \ insert c V ⊆ K \ V := by
    intro x hx
    rw [Finset.mem_sdiff] at hx ⊢
    exact ⟨hx.1, fun hxv => hx.2 (Finset.mem_insert_of_mem hxv)⟩
  refine Finset.card_lt_card ((Finset.ssubset_iff_of_subset hsub).mpr ?_)
  refine ⟨c, Finset.mem_sdiff.mpr ⟨hK, hV⟩, fun hcur => ?_⟩
  exact (Finset.mem_sdiff.mp hcur).2 (Finset.mem_insert_self _ _)

theorem findRootFuel_spec (areas : AreaTable) (orig : Nat) :
    ∀ (fuel : Nat) (visited : Finset Nat) (current : Nat),
      ((areas.map Prod.fst).toFinset \ visited).card < fuel →
      findRootFuel areas orig fuel visited current =
        some (findRootAux areas orig visited current) := by
  intro fuel
  induction fuel with
  | zero => intro v c h; omega
  | succ n ih =>
    intro visited current h
    rw [findRootAux_eq]
    unfold findRootFuel
    rcases hlk : List.lookup current areas with _ | area
    · rfl
    · dsimp only
      by_cases hc : area.parent_id = 0 ∨ current ∈ visited
      · rw [if_pos hc, if_pos hc]
      · rw [if_neg hc, if_neg hc]
        apply ih
        have hkm : current ∈ (areas.map Prod.fst).toFinset :=
          List.mem_toFinset.mpr (lookup_mem_keys hlk)
        have hvm : current ∉ visited := fun hm => hc (Or.inr hm)
        have := sdiff_insert_card_lt hkm hvm
        omega

/-- C4: the `find_root_parent` loop terminates on every input — it finishes
within `table size + 1` iterations, as witnessed by the fuel-indexed loop — and
on a two-cycle `X → Y → X` it stops by the visited check and returns `X`, the
id at which a previously visited id is first revisited. -/
theorem c4_termination_cycle (areas : AreaTable) :
    (∀ id : Nat,
        findRootFuel areas id ((areas.map Prod.fst).toFinset.card + 1) ∅ id =
          some (find_root_parent id areas)) ∧
    (∀ X Y aX aY, List.lookup X areas = some aX → aX.parent_id = Y → Y ≠ 0 → X ≠ Y →
        List.lookup Y areas = some aY → aY.parent_id = X → X ≠ 0 →
        find_root_parent X areas = X) := by
  constructor
  · intro id
    apply findRootFuel_spec
    rw [Finset.sdiff_empty]
    omega
  · intro X Y aX aY hX hpX hY0 hXY hY hpY hX0
    unfold find_root_parent
    rw [findRootAux_eq, hX]
    dsimp only
    rw [if_neg (show ¬(aX.parent_id = 0 ∨ X ∈ (∅ : Finset Nat)) from
      fun hc => hc.elim (fun e => hY0 (hpX ▸ e)) (by simp))]
    rw [hpX, findRootAux_eq, hY]
    dsimp only
    rw [if_neg (show ¬(aY.parent_id = 0 ∨ Y ∈ insert X (∅ : Finset Nat)) from
      fun hc => hc.elim (fun e => hX0 (hpY ▸ e))
        (fun hm => hXY ((Finset.mem_insert.mp hm).resolve_right (by simp)).symm))]
    rw [hpY, findRootAux_eq, hX]
    dsimp only
    rw [if_pos (Or.inr (Finset.mem_insert_of_mem (Finset.mem_insert_self _ _)))]

theorem c4_termination_cycle_witness :
    findRootFuel w4Areas 1 ((w4Areas.map Prod.fst).toFinset.card + 1) ∅ 1 =
      some (find_root_parent 1 w4Areas) ∧
    find_root_parent 1 w4Areas = 1 :=
  ⟨(c4_termination_cycle w4Areas).1 1,
   (c4_termination_cycle w4Areas).2 1 2 ⟨1, "", 2, 0⟩ ⟨2, "", 1, 0⟩ (by decide) rfl (by decide)
     (by decide) (by decide) rfl (by decide)⟩

theorem btreeAscList_eq_sort (s : Finset Nat) : btreeAscList s = s.sort (· ≤ ·) := by
  rcases s with ⟨m, hn⟩
  induction m using Quotient.inductionOn with
  | h l =>
    refine List.eq_of_perm_of_sorted ?_ (List.sorted_insertionSort _ l) (Finset.sort_sorted _ _)
    have h1 : List.Perm (Multiset.sort (· ≤ ·) (⟦l⟧ : Multiset Nat)) l :=
      Quotient.exact (Multiset.sort_eq (· ≤ ·) (⟦l⟧ : Multiset Nat))
    exact (List.perm_insertionSort _ l).trans h1.symm

theorem ordInsert_perm (cnt : Nat → Nat) (a : Nat) (l : List Nat) :
    List.Perm (ordInsert cnt a l) (a :: l) := by
  induction l with
  | nil => exact List.Perm.refl _
  | cons b bs ih =>
    unfold ordInsert
    split
    · exact List.Perm.refl _
    · exact (List.Perm.cons b ih).trans (List.Perm.swap a b bs)

theorem sortDescBy_perm (cnt : Nat → Nat) (l : List Nat) :
    List.Perm (sortDescBy cnt l) l := by
  induction l with
  | nil => exact List.Perm.refl _
  | cons a rest ih =>
    exact (ordInsert_perm cnt a _).trans (List.Perm.cons a ih)

theorem ordInsert_pairwise (cnt : Nat → Nat) (a : Nat) (l : List Nat)
    (hl : l.Pairwise (fun x y => cnt y < cnt x ∨ (cnt x = cnt y ∧ x < y)))
    (ha : ∀ y ∈ l, a < y) :
    (ordInsert cnt a l).Pairwise (fun x y => cnt y < cnt x ∨ (cnt x = cnt y ∧ x < y)) := by
  induction l with
  | nil => simp [ordInsert]
  | cons b bs ih =>
    rw [List.pairwise_cons] at hl
    unfold ordInsert
    split
    case isTrue hba =>
      rw [List.pairwise_cons]
      refine ⟨?_, List.pairwise_cons.mpr hl⟩
      intro z hz
      rcases List.mem_cons.mp hz with hzb | hzbs
      · rcases Nat.lt_or_ge (cnt z) (cnt a) with h | h
        · exact Or.inl h
        · refine Or.inr ⟨Nat.le_antisymm h ?_, ha z ?_⟩
          · rw [hzb]
            exact hba
          · rw [hzb]
            exact List.mem_cons_self b bs
      · rcases hl.1 z hzbs with h | ⟨heq, _⟩
        · exact Or.inl (Nat.lt_of_lt_of_le h hba)
        · rcases Nat.lt_or_ge (cnt z) (cnt a) with h2 | h2
          · exact Or.inl h2
          · refine Or.inr ⟨Nat.le_antisymm h2 ?_, ha z (List.mem_cons_of_mem b hzbs)⟩
            rw [← heq]
            exact hba
    case isFalse hba =>
      rw [List.pairwise_cons]
      refine ⟨?_, ih hl.2 (fun y hy => ha y (List.mem_cons_of_mem b hy))⟩
      intro z hz
      rcases List.mem_cons.mp ((ordInsert_perm cnt a bs).mem_iff.mp hz) with rfl | hzbs
      · exact Or.inl (Nat.not_le.mp hba)
      · exact hl.1 z hzbs

theorem sortDescBy_pairwise (cnt : Nat → Nat) (l : List Nat) (h : l.Pairwise (· < ·)) :
    (sortDescBy cnt l).Pairwise (fun x y => cnt y < cnt x ∨ (cnt x = cnt y ∧ x < y)) := by
  induction l with
  | nil => simp [sortDescBy]
  | cons a rest ih =>
    rw [List.pairwise_cons] at h
    unfold sortDescBy
    exact ordInsert_pairwise cnt a _ (ih h.2)
      (fun y hy => h.1 y ((sortDescBy_perm cnt rest).mem_iff.mp hy))

/-- C5: regions are colored in an order sorted by strictly descending neighbor
count with ties broken by ascending region id: the processing order is a
permutation of the sentinel-free found set in ascending order, it is pairwise
sorted by the strict count-then-id order, and it is the unique such list, so it
is fully determined by the found set and the graph. -/
theorem c5_processing_order (found_areas : Finset Nat) (neighbors : Graph) :
    List.Perm (processOrder found_areas neighbors)
      ((found_areas.sort (· ≤ ·)).filter (fun a => a ≠ 0)) ∧
    (processOrder found_areas neighbors).Pairwise (fun a b =>
      (neighbors b).length < (neighbors a).length ∨
        ((neighbors a).length = (neighbors b).length ∧ a < b)) ∧
    (∀ l : List Nat, List.Perm l (processOrder found_areas neighbors) →
      l.Pairwise (fun a b =>
        (neighbors b).length < (neighbors a).length ∨
          ((neighbors a).length = (neighbors b).length ∧ a < b)) →
      l = processOrder found_areas neighbors) := by
  have hpair : (processOrder found_areas neighbors).Pairwise (fun a b =>
      (neighbors b).length < (neighbors a).length ∨
        ((neighbors a).length = (neighbors b).length ∧ a < b)) := by
    unfold processOrder
    apply sortDescBy_pairwise
    refine List.Pairwise.filter _ ?_
    rw [btreeAscList_eq_sort]
    exact Finset.sort_sorted_lt found_areas
  refine ⟨?_, hpair, ?_⟩
  · unfold processOrder
    rw [btreeAscList_eq_sort]
    exact sortDescBy_perm _ _
  · intro l hperm hl
    haveI : IsAntisymm Nat (fun a b =>
        (neighbors b).length < (neighbors a).length ∨
          ((neighbors a).length = (neighbors b).length ∧ a < b)) := by
      constructor
      intro x y hxy hyx
      rcases hxy with h1 | ⟨e1, h1⟩ <;> rcases hyx with h2 | ⟨e2, h2⟩ <;> omega
    exact List.eq_of_perm_of_sorted hperm hl hpair

theorem b64index_b64char : ∀ n : Nat, n < 64 → b64index (b64char n) = n := by decide

theorem b64char_ne_pad : ∀ n : Nat, n < 64 → b64char n ≠ '=' := by decide

theorem b64_roundtrip : ∀ l : List Nat, (∀ b ∈ l, b < 256) →
    b64decodeBytes (b64encodeBytes l) = l
  | [], _ => rfl
  | [b0], h => by
    have hb0 : b0 < 256 := h b0 (by simp)
    unfold b64encodeBytes b64decodeBytes
    rw [if_pos rfl]
    rw [b64index_b64char _ (by omega), b64index_b64char _ (by omega)]
    congr 1
    omega
  | [b0, b1], h => by
    have hb0 : b0 < 256 := h b0 (by simp)
    have hb1 : b1 < 256 := h b1 (by simp)
    unfold b64encodeBytes b64decodeBytes
    rw [if_neg (b64char_ne_pad _ (by omega)), if_pos rfl]
    rw [b64index_b64char _ (by omega), b64index_b64char _ (by omega),
        b64index_b64char _ (by omega)]
    simp only [List.cons.injEq, and_true]
    exact ⟨by omega, by omega⟩
  | b0 :: b1 :: b2 :: rest, h => by
    have hb0 : b0 < 256 := h b0 (by simp)
    have hb1 : b1 < 256 := h b1 (by simp)
    have hb2 : b2 < 256 := h b2 (by simp)
    have ih := b64_roundtrip rest (fun b hb => h b
      (List.mem_cons_of_mem _ (List.mem_cons_of_mem _ (List.mem_cons_of_mem _ hb))))
    unfold b64encodeBytes b64decodeBytes
    rw [if_neg (b64char_ne_pad _ (by omega)), if_neg (b64char_ne_pad _ (by omega))]
    rw [b64index_b64char _ (by omega), b64index_b64char _ (by omega),
        b64index_b64char _ (by omega), b64index_b64char _ (by omega)]
    rw [ih]
    simp only [List.cons.injEq]
    exact ⟨by omega, by omega, by omega, trivial⟩

theorem le_words_flatMap : ∀ ids : List Nat, (∀ v ∈ ids, v < 4294967296) →
    le_words (ids.flatMap u32_to_le_bytes) = ids
  | [], _ => rfl
  | v :: rest, h => by
    have hv : v < 4294967296 := h v (by simp)
    have ih := le_words_flatMap rest (fun w hw => h w (by simp [hw]))
    simp only [List.flatMap_cons, u32_to_le_bytes, List.cons_append, List.nil_append]
    show (v % 256 + 256 * (v / 256 % 256) + 65536 * (v / 65536 % 256) +
        16777216 * (v / 16777216 % 256)) :: le_words (rest.flatMap u32_to_le_bytes) = v :: rest
    rw [ih]
    congr 1
    omega

/-- C9: `encode_tile_b64` succeeds exactly on inputs of exactly 256 region IDs,
and on success the encoding is lossless and order-preserving: base64-decoding
the output and reading consecutive little-endian 32-bit words yields the
original 256-element array. -/
theorem c9_encode_roundtrip (ids : List Nat) :
    ((encode_tile_b64 ids).isOk = true ↔ ids.length = 256) ∧
    (∀ s : String, (∀ v ∈ ids, v < 4294967296) → encode_tile_b64 ids = .ok s →
      le_words (b64decodeBytes s.data) = ids) := by
  constructor
  · unfold encode_tile_b64
    by_cases h : ids.length = 256
    · rw [if_neg (fun hne => hne h)]
      simp [h, Except.isOk, Except.toBool]
    · rw [if_pos h]
      simp [h, Except.isOk, Except.toBool]
  · intro s hbound hok
    unfold encode_tile_b64 at hok
    by_cases h : ids.length = 256
    · rw [if_neg (fun hne => hne h)] at hok
      have hs : s.data = b64encodeBytes (ids.flatMap u32_to_le_bytes) := by
        cases hok
        rfl
      rw [hs, b64_roundtrip _ ?_, le_words_flatMap _ hbound]
      intro b hb
      rcases List.mem_flatMap.mp hb with ⟨v, hv, hbv⟩
      simp only [u32_to_le_bytes, List.mem_cons, List.not_mem_nil, or_false] at hbv
      rcases hbv with h1 | h1 | h1 | h1 <;> subst h1 <;> omega
    · rw [if_pos h] at hok
      exact absurd hok (by simp)

set_option maxRecDepth 4000 in
theorem c9_encode_roundtrip_witness :
    (encode_tile_b64 (List.replicate 256 5)).isOk = true ∧
    le_words (b64decodeBytes
        (((encode_tile_b64 (List.replicate 256 5)).toOption.getD "").data)) =
      List.replicate 256 5 := by
  have h1 : (encode_tile_b64 (List.replicate 256 5)).isOk = true :=
    (c9_encode_roundtrip (List.replicate 256 5)).1.mpr (by simp)
  refine ⟨h1, ?_⟩
  rcases he : encode_tile_b64 (List.replicate 256 5) with e | s
  · rw [he] at h1
    simp [Except.isOk, Except.toBool] at h1
  · have h2 := (c9_encode_roundtrip (List.replicate 256 5)).2 s (by
        intro v hv
        have := List.eq_of_mem_replicate hv
        omega) he
    simpa [Except.toOption] using h2

theorem paletteIdxOf_palette :
    ∀ k : Nat, k < palette.length → paletteIdxOf (palette.getD k (0, 0, 0)) = some k := by decide

theorem palette_far_27 :
    ∀ p ∈ palette, ¬(|p.1 - 27/100| < 1/100) ∧ ¬(|p.2.1 - 27/100| < 1/100) ∧
      ¬(|p.2.2 - 27/100| < 1/100) := by decide

theorem fallbackColor_channel (area_id : Nat) :
    (fallbackColor area_id).1 = 27/100 ∨ (fallbackColor area_id).2.1 = 27/100 ∨
      (fallbackColor area_id).2.2 = 27/100 := by
  unfold fallbackColor
  dsimp only
  split <;> norm_num

theorem position_eq_none (p : Color → Bool) :
    ∀ l : List Color, (∀ c ∈ l, p c = false) → position p l = none := by
  intro l
  induction l with
  | nil => intro _; rfl
  | cons c rest ih =>
    intro h
    unfold position
    rw [h c (List.mem_cons_self c rest)]
    simp [ih (fun d hd => h d (List.mem_cons_of_mem c hd))]

theorem paletteIdxOf_fallback (area_id : Nat) : paletteIdxOf (fallbackColor area_id) = none := by
  unfold paletteIdxOf
  apply position_eq_none
  intro p hp
  unfold closeColor
  rcases fallbackColor_channel area_id with h | h | h
  · rw [h, decide_eq_false (palette_far_27 p hp).1]
    simp
  · rw [h, decide_eq_false (palette_far_27 p hp).2.1]
    simp
  · rw [h, decide_eq_false (palette_far_27 p hp).2.2]
    simp

theorem assignColor_palette_idx {g : Graph} {areas : AreaTable} {m : ColorMap} {a k : Nat}
    (h : paletteIdxOf (assignColor g areas m a) = some k) :
    k < palette.length ∧ (neighborColorIdxs m (g a)).contains k = false ∧
      k = chosenIdx (neighborColorIdxs m (g a)) (parentColorIdx areas m a) := by
  unfold assignColor at h
  dsimp only at h
  split at h
  case isTrue hcond =>
    rw [paletteIdxOf_palette _ hcond.1] at h
    cases h
    exact ⟨hcond.1, hcond.2, rfl⟩
  case isFalse hcond =>
    rw [paletteIdxOf_fallback] at h
    exact Option.noConfusion h

theorem lookup_cons_ne {a b : Nat} {v : Color} {m : ColorMap} (h : a ≠ b) :
    List.lookup a ((b, v) :: m) = List.lookup a m := by
  simp [List.lookup, beq_eq_false_iff_ne.mpr h]

theorem lookup_cons_self {a : Nat} {v : Color} {m : ColorMap} :
    List.lookup a ((a, v) :: m) = some v := by
  simp [List.lookup]

theorem fold_lookup_not_mem (g : Graph) (areas : AreaTable) :
    ∀ (l : List Nat) (m : ColorMap) (a : Nat), a ∉ l →
      List.lookup a (l.foldl (colorStep g areas) m) = List.lookup a m := by
  intro l
  induction l with
  | nil => intro m a _; rfl
  | cons b t ih =>
    intro m a ha
    have hab : a ≠ b := fun e => ha (e ▸ List.mem_cons_self b t)
    have hat : a ∉ t := fun ht => ha (List.mem_cons_of_mem b ht)
    show List.lookup a (t.foldl (colorStep g areas) (colorStep g areas m b)) = _
    rw [ih _ a hat]
    unfold colorStep
    exact lookup_cons_ne hab

theorem fold_lookup_middle (g : Graph) (areas : AreaTable) (l₁ l₂ : List Nat) (m : ColorMap)
    (a : Nat) (ha : a ∉ l₂) :
    List.lookup a ((l₁ ++ a :: l₂).foldl (colorStep g areas) m) =
      some (assignColor g areas (l₁.foldl (colorStep g areas) m) a) := by
  rw [List.foldl_append]
  show List.lookup a
      (l₂.foldl (colorStep g areas) (colorStep g areas (l₁.foldl (colorStep g areas) m) a)) = _
  rw [fold_lookup_not_mem g areas l₂ _ a ha]
  unfold colorStep
  exact lookup_cons_self

theorem btreeAscList_nodup (s : Finset Nat) : (btreeAscList s).Nodup := by
  rw [btreeAscList_eq_sort]
  exact Finset.sort_nodup _ s

theorem processOrder_nodup (found : Finset Nat) (g : Graph) : (processOrder found g).Nodup := by
  unfold processOrder
  exact (sortDescBy_perm _ _).nodup_iff.mpr ((btreeAscList_nodup found).filter _)

theorem lookup_generate_none (found : Finset Nat) (g : Graph) (areas : AreaTable) (a : Nat)
    (ha : a ∉ processOrder found g) :
    List.lookup a (generate_colors_with_graph found g areas) = none := by
  unfold generate_colors_with_graph
  rw [fold_lookup_not_mem g areas _ [] a ha]
  rfl

theorem colored_before_ne (found : Finset Nat) (g : Graph) (areas : AreaTable)
    {a b ka kb : Nat} {l₁ l₂ : List Nat}
    (horder : processOrder found g = l₁ ++ b :: l₂) (hmem : a ∈ l₁) (hadj : a ∈ g b)
    (hA : (List.lookup a (generate_colors_with_graph found g areas)).bind paletteIdxOf = some ka)
    (hB : (List.lookup b (generate_colors_with_graph found g areas)).bind paletteIdxOf = some kb) :
    ka ≠ kb := by
  have hnd : (l₁ ++ b :: l₂).Nodup := horder ▸ processOrder_nodup found g
  have hd := List.nodup_append.mp hnd
  have hanotb : a ∉ b :: l₂ := fun hin => hd.2.2 hmem hin
  have hbl2 : b ∉ l₂ := (List.nodup_cons.mp hd.2.1).1
  have hFb : List.lookup b (generate_colors_with_graph found g areas) =
      some (assignColor g areas (l₁.foldl (colorStep g areas) []) b) := by
    unfold generate_colors_with_graph
    rw [horder]
    exact fold_lookup_middle g areas l₁ l₂ [] b hbl2
  have hFa : List.lookup a (generate_colors_with_graph found g areas) =
      List.lookup a (l₁.foldl (colorStep g areas) []) := by
    unfold generate_colors_with_graph
    rw [horder, List.foldl_append]
    exact fold_lookup_not_mem g areas (b :: l₂) _ a hanotb
  rw [hFb, Option.some_bind] at hB
  rw [hFa] at hA
  have hchar := assignColor_palette_idx hB
  rcases Option.bind_eq_some.mp hA with ⟨ca, hca, hpk⟩
  have hmemnc : ka ∈ neighborColorIdxs (l₁.foldl (colorStep g areas) []) (g b) := by
    unfold neighborColorIdxs
    refine List.mem_filterMap.mpr ⟨a, hadj, ?_⟩
    rw [hca, Option.some_bind]
    exact hpk
  intro hk
  rw [hk] at hmemnc
  have hcontains : (neighborColorIdxs (l₁.foldl (colorStep g areas) []) (g b)).contains kb =
      true := List.elem_eq_true_of_mem hmemnc
  rw [hchar.2.1] at hcontains
  exact Bool.false_ne_true hcontains

/-- C2 counterexample: in the run on found set {2, 3} with the empty graph and
a table where region 2 has immediate parent 3, region 2 is colored before its
parent (tie on neighbor count 0, ascending id), so both end up with palette
index 0: a palette-colored region and its palette-colored immediate parent
share a palette index, refuting the claim as stated. -/
theorem c2_counterexample :
    (List.lookup 2 c2xAreas).map AreaInfo.parent_id = some 3 ∧
    List.lookup 2 (generate_colors_with_graph ({2, 3} : Finset Nat) (fun _ => []) c2xAreas) =
      some (palette.getD 0 (0, 0, 0)) ∧
    List.lookup 3 (generate_colors_with_graph ({2, 3} : Finset Nat) (fun _ => []) c2xAreas) =
      some (palette.getD 0 (0, 0, 0)) ∧
    (List.lookup 2 (generate_colors_with_graph ({2, 3} : Finset Nat) (fun _ => []) c2xAreas)).bind
      paletteIdxOf = some 0 ∧
    (List.lookup 3 (generate_colors_with_graph ({2, 3} : Finset Nat) (fun _ => []) c2xAreas)).bind
      paletteIdxOf = some 0 := by decide

/-- C2 (amended): (1) for every pair of distinct adjacent regions that are both
assigned palette colors, their palette indices differ; (2) for every
palette-colored region whose immediate parent already had a palette color when
the region was processed, and for which the search loop found an unexcluded
palette index, the region's palette index differs from its parent's.  (The
original claim's unconditional parent half fails when the parent is colored
after the region — see the counterexample — and in the degenerate all-excluded
case of C1.) -/
theorem c2_palette_constraints :
    (∀ (found : Finset Nat) (g : Graph) (areas : AreaTable) (a b ka kb : Nat),
      a ≠ b → a ∈ g b → b ∈ g a →
      (List.lookup a (generate_colors_with_graph found g areas)).bind paletteIdxOf = some ka →
      (List.lookup b (generate_colors_with_graph found g areas)).bind paletteIdxOf = some kb →
      ka ≠ kb) ∧
    (∀ (found : Finset Nat) (g : Graph) (areas : AreaTable) (a ka kp : Nat) (l₁ l₂ : List Nat),
      processOrder found g = l₁ ++ a :: l₂ →
      parentColorIdx areas (l₁.foldl (colorStep g areas) []) a = some kp →
      (firstFree (neighborColorIdxs (l₁.foldl (colorStep g areas) []) (g a))
        (parentColorIdx areas (l₁.foldl (colorStep g areas) []) a)).isSome = true →
      (List.lookup a (generate_colors_with_graph found g areas)).bind paletteIdxOf = some ka →
      ka ≠ kp) := by
  constructor
  · intro found g areas a b ka kb hne hab hba hA hB
    have hbmem : b ∈ processOrder found g := by
      by_contra hbn
      rw [lookup_generate_none found g areas b hbn, Option.none_bind] at hB
      exact Option.noConfusion hB
    have hamem : a ∈ processOrder found g := by
      by_contra han
      rw [lookup_generate_none found g areas a han, Option.none_bind] at hA
      exact Option.noConfusion hA
    rcases List.append_of_mem hbmem with ⟨l₁, l₂, horder⟩
    have hasplit : a ∈ l₁ ∨ a ∈ l₂ := by
      have hin : a ∈ l₁ ++ b :: l₂ := horder ▸ hamem
      rcases List.mem_append.mp hin with h | h
      · exact Or.inl h
      · rcases List.mem_cons.mp h with h | h
        · exact absurd h hne
        · exact Or.inr h
    rcases hasplit with hin | hin
    · exact colored_before_ne found g areas horder hin hab hA hB
    · rcases List.append_of_mem hin with ⟨p, q, hl2⟩
      have horder2 : processOrder found g = (l₁ ++ b :: p) ++ a :: q := by
        rw [horder, hl2]
        simp
      have hbmem1 : b ∈ l₁ ++ b :: p := List.mem_append.mpr (Or.inr (List.mem_cons_self b p))
      exact (colored_before_ne found g areas horder2 hbmem1 hba hB hA).symm
  · intro found g areas a ka kp l₁ l₂ horder hpar hfree hA
    have hnd : (l₁ ++ a :: l₂).Nodup := horder ▸ processOrder_nodup found g
    have hal2 : a ∉ l₂ := (List.nodup_cons.mp (List.nodup_append.mp hnd).2.1).1
    have hFa : List.lookup a (generate_colors_with_graph found g areas) =
        some (assignColor g areas (l₁.foldl (colorStep g areas) []) a) := by
      unfold generate_colors_with_graph
      rw [horder]
      exact fold_lookup_middle g areas l₁ l₂ [] a hal2
    rw [hFa, Option.some_bind] at hA
    have hchar := assignColor_palette_idx hA
    rcases Option.isSome_iff_exists.mp hfree with ⟨j, hj⟩
    have hka : ka = j := by
      rw [hchar.2.2]
      unfold chosenIdx
      rw [hj]
      rfl
    have hpred := List.find?_some hj
    rw [hpar] at hpred
    simp only [Bool.and_eq_true, Bool.not_eq_true'] at hpred
    rw [hka]
    intro hjk
    rw [hjk] at hpred
    simp at hpred

theorem c2_palette_constraints_witness : ((0 : Nat) ≠ 1) ∧ ((1 : Nat) ≠ 0) :=
  ⟨c2_palette_constraints.1 {1, 2} wAdjGraph [] 1 2 0 1 (by decide) (by decide) (by decide)
      (by decide) (by decide),
   c2_palette_constraints.2 {2, 3, 9} wParGraph wParAreas 3 1 0 [2, 9] [] (by decide)
      (by decide) (by decide) (by decide)⟩

theorem contains_eq_of_perm {l1 l2 : List Nat} (h : List.Perm l1 l2) (x : Nat) :
    l1.contains x = l2.contains x := by
  show List.elem x l1 = List.elem x l2
  by_cases hx : x ∈ l1
  · rw [List.elem_eq_true_of_mem hx, List.elem_eq_true_of_mem (h.mem_iff.mp hx)]
  · have hx2 : x ∉ l2 := fun h2 => hx (h.mem_iff.mpr h2)
    have e1 : List.elem x l1 = false := by
      rw [← Bool.not_eq_true]
      exact fun hc => hx (List.elem_iff.mp hc)
    have e2 : List.elem x l2 = false := by
      rw [← Bool.not_eq_true]
      exact fun hc => hx2 (List.elem_iff.mp hc)
    rw [e1, e2]

/-- C6: `generate_colors_with_graph` is deterministic: two runs on the same
found-region set, the same area table, and adjacency graphs whose neighbor
sets hold the same regions — whatever the iteration order of the underlying
hash sets — produce identical color assignments. -/
theorem c6_determinism (found : Finset Nat) (areas : AreaTable) (g1 g2 : Graph)
    (h : ∀ a : Nat, List.Perm (g1 a) (g2 a)) :
    generate_colors_with_graph found g1 areas = generate_colors_with_graph found g2 areas := by
  have hcnt : (fun a => (g1 a).length) = (fun a => (g2 a).length) :=
    funext fun a => (h a).length_eq
  have hnc : ∀ (m : ColorMap) (a i : Nat),
      (neighborColorIdxs m (g1 a)).contains i = (neighborColorIdxs m (g2 a)).contains i :=
    fun m a i => contains_eq_of_perm ((h a).filterMap _) i
  have hassign : ∀ (m : ColorMap) (a : Nat),
      assignColor g1 areas m a = assignColor g2 areas m a := by
    intro m a
    unfold assignColor
    have hfree : firstFree (neighborColorIdxs m (g1 a)) (parentColorIdx areas m a) =
        firstFree (neighborColorIdxs m (g2 a)) (parentColorIdx areas m a) := by
      unfold firstFree
      congr 1
      funext i
      rw [hnc m a i]
    dsimp only
    rw [show chosenIdx (neighborColorIdxs m (g1 a)) (parentColorIdx areas m a) =
        chosenIdx (neighborColorIdxs m (g2 a)) (parentColorIdx areas m a) by
      unfold chosenIdx
      rw [hfree]]
    rw [hnc m a (chosenIdx (neighborColorIdxs m (g2 a)) (parentColorIdx areas m a))]
  have hstep : colorStep g1 areas = colorStep g2 areas := by
    funext m a
    unfold colorStep
    rw [hassign m a]
  unfold generate_colors_with_graph processOrder
  rw [hcnt, hstep]

theorem c6_determinism_witness :
    generate_colors_with_graph {1, 2, 3} wDetGraph1 [] =
      generate_colors_with_graph {1, 2, 3} wDetGraph2 [] := by
  refine c6_determinism {1, 2, 3} [] wDetGraph1 wDetGraph2 (fun a => ?_)
  by_cases h1 : a = 1
  · subst h1
    decide
  · by_cases h2 : a = 2
    · subst h2
      decide
    · by_cases h3 : a = 3
      · subst h3
        decide
      · unfold wDetGraph1 wDetGraph2
        simp only [if_neg h1, if_neg h2, if_neg h3]
        exact List.Perm.refl []

/-- C1 (code evaluated at the failing input): at region 100's coloring step
every palette index is excluded — its fifteen already-colored neighbors use
indices 1..15 and its already-colored parent 200 uses index 0 — yet the code
assigns palette entry 0 (its parent's palette entry), not the procedurally
synthesized color, because the fallback test only re-checks `neighbor_colors`
and index 0 was excluded solely through the parent.  This contradicts the
claim, the spec, and the code's own comments ("If all colors used, generate a
unique one", "Also avoid parent color"). -/
theorem c1_degenerate_eval :
    processOrder cxFound cxG = cxBefore100 ++ 100 :: cxAfter100 ∧
    (∀ i, i < palette.length →
      ((neighborColorIdxs (cxBefore100.foldl (colorStep cxG cxAreas) []) (cxG 100)).contains i =
          true ∨
        parentColorIdx cxAreas (cxBefore100.foldl (colorStep cxG cxAreas) []) 100 = some i)) ∧
    List.lookup 100 (generate_colors_with_graph cxFound cxG cxAreas) =
      some (palette.getD 0 (0, 0, 0)) ∧
    palette.getD 0 (0, 0, 0) ≠ fallbackColor 100 := by decide

